import Mathlib

/-!
Shallow embedding of src/src/compiler/rules/character_set.cc
(tree-sitter compiler, rules::CharacterSet) together with proofs about
the claims of the specification.

Code points (C++ uint32_t) are modelled as Nat; the stored containers
(std::set of uint32_t) are modelled as Finset Nat, iterated in sorted
order (the iteration order of std::set) via sorted_chars.  The uint32
wraparound of the range loops is modelled separately (range_loop_counter)
where it matters for termination.
-/

/-- A closed range of code points, as in CharacterRange of the C++ source
(rule.h); CharacterRange(c) is the singleton range. -/
structure CharacterRange where
  min : Nat
  max : Nat
deriving DecidableEq, Repr

/-- The sorted list of the elements of a finite set of code points: the
iteration order of a std::set of uint32_t. -/
def sorted_chars (s : Finset Nat) : List Nat :=
  Quotient.liftOn s.val (fun l => l.insertionSort (· ≤ ·)) fun a b h =>
    List.eq_of_perm_of_sorted
      (((List.perm_insertionSort _ a).trans h).trans (List.perm_insertionSort _ b).symm)
      (List.sorted_insertionSort _ a) (List.sorted_insertionSort _ b)

/-- Number of values of uint32_t. -/
def u32 : Nat := 4294967296

/-- Value of the loop variable c of add_range / remove_range
(for c = min; c <= max; c++) after n increments, with uint32 wraparound. -/
def range_loop_counter (min : Nat) : Nat → Nat
  | 0 => min % u32
  | n + 1 => (range_loop_counter min n + 1) % u32

/-- The loop of add_range / remove_range terminates: the loop condition
c <= max fails after finitely many iterations. -/
def range_loop_terminates (min max : Nat) : Prop :=
  ∃ n, max < range_loop_counter min n

/-- add_range(characters, min, max): insert every code point of
[min, max], one insertion per loop iteration (modelled without the
uint32 wraparound, which is sound whenever max < u32 - 1). -/
def add_range (chars : Finset Nat) (min max : Nat) : Finset Nat :=
  if min ≤ max then add_range (insert min chars) (min + 1) max else chars
termination_by max + 1 - min
decreasing_by omega

/-- remove_range(characters, min, max): erase every code point of
[min, max], one erasure per loop iteration. -/
def remove_range (chars : Finset Nat) (min max : Nat) : Finset Nat :=
  if min ≤ max then remove_range (chars.erase min) (min + 1) max else chars
termination_by max + 1 - min
decreasing_by omega

/-- Loop body of remove_chars: iterate over the elements of the right
set (in std::set order); erase each from the left set, collecting into
the result those that were present. Returns (left, result). -/
def remove_chars_go : Finset Nat → List Nat → Finset Nat × Finset Nat
  | left, [] => (left, ∅)
  | left, c :: cs =>
    if c ∈ left then
      let p := remove_chars_go (left.erase c) cs
      (p.1, insert c p.2)
    else
      remove_chars_go left cs

/-- remove_chars(left, right) of the C++ source: erases from left every
element of right, returning the pair (new value of left, set of elements
actually erased). -/
def remove_chars (left right : Finset Nat) : Finset Nat × Finset Nat :=
  remove_chars_go left (sorted_chars right)

/-- Loop body of add_chars: iterate over the elements of the right set;
insert each into the left set, collecting into the result those that
were newly inserted. Returns (left, result). -/
def add_chars_go : Finset Nat → List Nat → Finset Nat × Finset Nat
  | left, [] => (left, ∅)
  | left, c :: cs =>
    if c ∈ left then
      add_chars_go left cs
    else
      let p := add_chars_go (insert c left) cs
      (p.1, insert c p.2)

/-- add_chars(left, right) of the C++ source: inserts into left every
element of right, returning the pair (new value of left, set of elements
newly inserted). -/
def add_chars (left right : Finset Nat) : Finset Nat × Finset Nat :=
  add_chars_go left (sorted_chars right)

/-- One iteration of the loop of consolidate_ranges, acting on the
already-built vector of ranges held in REVERSED order (the head of the
list is the back of the C++ vector).  Comparisons against c - 2 and
c - 1 are written additively (prev.max + 2 = c, last.max + 1 = c),
which agrees with the uint32 subtractions of the source at every state
the sorted iteration can reach. -/
def consolidate_step (acc : List CharacterRange) (c : Nat) : List CharacterRange :=
  match acc with
  | last :: penult :: rest =>
    if penult.max + 2 = c then
      { penult with max := c } :: rest
    else if last.min < last.max ∧ last.max + 1 = c then
      { last with max := c } :: penult :: rest
    else
      CharacterRange.mk c c :: last :: penult :: rest
  | [last] =>
    if last.min < last.max ∧ last.max + 1 = c then
      [{ last with max := c }]
    else
      [CharacterRange.mk c c, last]
  | [] => [CharacterRange.mk c c]

/-- consolidate_ranges(chars) of the C++ source: fold the loop body over
the code points in sorted order, then restore the vector order. -/
def consolidate_ranges (chars : Finset Nat) : List CharacterRange :=
  ((sorted_chars chars).foldl consolidate_step []).reverse

/-- The CharacterSet data model: a discriminator plus the two stored
point sets, exactly the fields of the C++ class. -/
structure CharacterSet where
  includes_all : Bool
  included_chars : Finset Nat
  excluded_chars : Finset Nat
deriving DecidableEq

/-- The default constructor: includes_all = false, both sets empty. -/
def CharacterSet.default : CharacterSet := ⟨false, ∅, ∅⟩

/-- Membership of a code point under the representation semantics: a set
in direct form contains exactly included_chars, a set in complement form
contains everything except excluded_chars. -/
def CharacterSet.mem (s : CharacterSet) (p : Nat) : Bool :=
  if s.includes_all then decide (p ∉ s.excluded_chars) else decide (p ∈ s.included_chars)

/-- include_all() of the C++ source. -/
def CharacterSet.include_all (_ : CharacterSet) : CharacterSet :=
  ⟨true, ∅, {0}⟩

/-- include(min, max) of the C++ source. -/
def CharacterSet.include_range (s : CharacterSet) (min max : Nat) : CharacterSet :=
  if s.includes_all then
    { s with excluded_chars := remove_range s.excluded_chars min max }
  else
    { s with included_chars := add_range s.included_chars min max }

/-- exclude(min, max) of the C++ source. -/
def CharacterSet.exclude_range (s : CharacterSet) (min max : Nat) : CharacterSet :=
  if s.includes_all then
    { s with excluded_chars := add_range s.excluded_chars min max }
  else
    { s with included_chars := remove_range s.included_chars min max }

/-- include(c) of the C++ source (single-point overload). -/
def CharacterSet.include_char (s : CharacterSet) (c : Nat) : CharacterSet :=
  s.include_range c c

/-- exclude(c) of the C++ source (single-point overload). -/
def CharacterSet.exclude_char (s : CharacterSet) (c : Nat) : CharacterSet :=
  s.exclude_range c c

/-- is_empty() of the C++ source. -/
def CharacterSet.is_empty (s : CharacterSet) : Bool :=
  !s.includes_all && decide (s.included_chars = ∅)

/-- add_set(other) of the C++ source (self union other, in place); the
returned value is the new value of self. -/
def CharacterSet.add_set (s other : CharacterSet) : CharacterSet :=
  if s.includes_all then
    if other.includes_all then
      { s with excluded_chars := (remove_chars s.excluded_chars other.excluded_chars).2 }
    else
      { s with excluded_chars := (remove_chars s.excluded_chars other.included_chars).1 }
  else
    if other.includes_all then
      { s with includes_all := true,
               excluded_chars :=
                 s.excluded_chars ∪
                   other.excluded_chars.filter (fun c => c ∉ s.included_chars),
               included_chars := ∅ }
    else
      { s with included_chars := s.included_chars ∪ other.included_chars }

/-- remove_set(other) of the C++ source (self minus other, in place,
returning the removed portion); the returned pair is (new value of self,
the result the C++ function returns). -/
def CharacterSet.remove_set (s other : CharacterSet) : CharacterSet × CharacterSet :=
  if s.includes_all then
    if other.includes_all then
      let p := add_chars s.excluded_chars other.excluded_chars
      (⟨false, p.2, ∅⟩, ⟨true, ∅, p.1⟩)
    else
      let p := add_chars s.excluded_chars other.included_chars
      (⟨true, s.included_chars, p.1⟩, ⟨false, p.2, ∅⟩)
  else
    if other.includes_all then
      let p := remove_chars s.included_chars other.excluded_chars
      (⟨false, p.2, s.excluded_chars⟩, ⟨false, p.1, ∅⟩)
    else
      let p := remove_chars s.included_chars other.included_chars
      (⟨false, p.1, s.excluded_chars⟩, ⟨false, p.2, ∅⟩)

/-- intersects(other) of the C++ source. -/
def CharacterSet.intersects (s other : CharacterSet) : Bool :=
  !(s.remove_set other).2.is_empty

/-- included_ranges() of the C++ source. -/
def CharacterSet.included_ranges (s : CharacterSet) : List CharacterRange :=
  consolidate_ranges s.included_chars

/-- excluded_ranges() of the C++ source. -/
def CharacterSet.excluded_ranges (s : CharacterSet) : List CharacterRange :=
  consolidate_ranges s.excluded_chars

/-- Lexicographic comparison of two lists, as std::lexicographical_compare
over the sorted element sequences of two std::sets (the meaning of
operator< on std::set). -/
def lexLt : List Nat → List Nat → Bool
  | _, [] => false
  | [], _ :: _ => true
  | a :: as, b :: bs =>
    if a < b then true else if b < a then false else lexLt as bs

/-- operator<(other) of the C++ source: order first by includes_all,
then lexicographically by included_chars, then by excluded_chars. -/
def CharacterSet.lt (s other : CharacterSet) : Bool :=
  if !s.includes_all && other.includes_all then true
  else if s.includes_all && !other.includes_all then false
  else if lexLt (sorted_chars s.included_chars) (sorted_chars other.included_chars) then true
  else if lexLt (sorted_chars other.included_chars) (sorted_chars s.included_chars) then false
  else lexLt (sorted_chars s.excluded_chars) (sorted_chars other.excluded_chars)

/-- The public mutating operations of CharacterSet, used to describe the
states reachable from the default constructor. -/
inductive CsOp where
  | opIncludeAll
  | opInclude (min max : Nat)
  | opExclude (min max : Nat)
  | opAddSet (other : CharacterSet)
  | opRemoveSet (other : CharacterSet)

/-- Apply one public operation to a set (for remove_set, the new value
of self). -/
def CsOp.apply (s : CharacterSet) : CsOp → CharacterSet
  | .opIncludeAll => s.include_all
  | .opInclude a b => s.include_range a b
  | .opExclude a b => s.exclude_range a b
  | .opAddSet o => s.add_set o
  | .opRemoveSet o => (s.remove_set o).1

/-- The set obtained from the default constructor by a sequence of
public operations. -/
def runOps (ops : List CsOp) : CharacterSet :=
  ops.foldl CsOp.apply CharacterSet.default

/-- The representation is tidy: the field not selected by includes_all
is empty (no leftover bookkeeping). -/
def TidyRep (s : CharacterSet) : Prop :=
  (s.includes_all = false → s.excluded_chars = ∅) ∧
    (s.includes_all = true → s.included_chars = ∅)

/-- The set of code points covered by a list of ranges. -/
def range_points : List CharacterRange → Finset Nat
  | [] => ∅
  | r :: rest => Finset.Icc r.min r.max ∪ range_points rest

/-- The inner part of operator<: compare the two inclusion sequences
lexicographically, breaking ties by the exclusion sequences. -/
def pairLexLt (i1 e1 i2 e2 : List Nat) : Bool :=
  if lexLt i1 i2 then true else if lexLt i2 i1 then false else lexLt e1 e2

/-- The two mutating operations allowed when building a set that never
leaves direct form: include(min, max) and exclude(min, max). -/
inductive IEOp where
  | inc (min max : Nat)
  | exc (min max : Nat)

/-- Apply an include or exclude operation. -/
def IEOp.apply (s : CharacterSet) : IEOp → CharacterSet
  | .inc a b => s.include_range a b
  | .exc a b => s.exclude_range a b

/-- The set built from the default constructor by a sequence of include
and exclude calls only. -/
def buildIE (ops : List IEOp) : CharacterSet :=
  ops.foldl IEOp.apply CharacterSet.default

/-- Re-include every range of a list into a fresh set. -/
def rebuild (rs : List CharacterRange) : CharacterSet :=
  rs.foldl (fun s r => s.include_range r.min r.max) CharacterSet.default

/-! Basic properties of sorted_chars. -/

theorem sorted_chars_sorted (s : Finset Nat) : (sorted_chars s).Sorted (· ≤ ·) := by
  rcases s with ⟨m, hm⟩
  induction m using Quotient.inductionOn with
  | h l => exact List.sorted_insertionSort _ l

theorem sorted_chars_nodup (s : Finset Nat) : (sorted_chars s).Nodup := by
  rcases s with ⟨m, hm⟩
  induction m using Quotient.inductionOn with
  | h l => exact ((List.perm_insertionSort _ l).nodup_iff).2 hm

theorem mem_sorted_chars {s : Finset Nat} {a : Nat} : a ∈ sorted_chars s ↔ a ∈ s := by
  rcases s with ⟨m, hm⟩
  induction m using Quotient.inductionOn with
  | h l =>
    show a ∈ l.insertionSort (· ≤ ·) ↔ _
    rw [(List.perm_insertionSort _ l).mem_iff]
    simp [Finset.mem_mk]

theorem sorted_chars_toFinset (s : Finset Nat) : (sorted_chars s).toFinset = s := by
  ext a
  simp [List.mem_toFinset, mem_sorted_chars]

theorem sorted_chars_inj {a b : Finset Nat} (h : sorted_chars a = sorted_chars b) :
    a = b := by
  ext x
  rw [← mem_sorted_chars, h, mem_sorted_chars]

theorem sorted_chars_pairwise (s : Finset Nat) : (sorted_chars s).Pairwise (· < ·) :=
  (sorted_chars_sorted s).lt_of_le (sorted_chars_nodup s)

/-! Set-level descriptions of the helper loops. -/

theorem add_range_eq (chars : Finset Nat) (min max : Nat) :
    add_range chars min max = chars ∪ Finset.Icc min max := by
  by_cases h : min ≤ max
  · rw [add_range, if_pos h, add_range_eq (insert min chars) (min + 1) max]
    ext x
    simp only [Finset.mem_union, Finset.mem_insert, Finset.mem_Icc]
    by_cases hx : x ∈ chars <;> simp [hx] <;> omega
  · rw [add_range, if_neg h]
    have hIcc : Finset.Icc min max = ∅ := Finset.Icc_eq_empty h
    simp [hIcc]
termination_by max + 1 - min
decreasing_by omega

theorem remove_range_eq (chars : Finset Nat) (min max : Nat) :
    remove_range chars min max = chars \ Finset.Icc min max := by
  by_cases h : min ≤ max
  · rw [remove_range, if_pos h, remove_range_eq (chars.erase min) (min + 1) max]
    ext x
    simp only [Finset.mem_sdiff, Finset.mem_erase, Finset.mem_Icc]
    by_cases hx : x ∈ chars <;> simp [hx] <;> omega
  · rw [remove_range, if_neg h]
    have hIcc : Finset.Icc min max = ∅ := Finset.Icc_eq_empty h
    simp [hIcc]
termination_by max + 1 - min
decreasing_by omega

theorem remove_chars_go_eq : ∀ (l : List Nat) (left : Finset Nat),
    remove_chars_go left l = (left \ l.toFinset, left ∩ l.toFinset) := by
  intro l
  induction l with
  | nil => intro left; simp [remove_chars_go]
  | cons c cs ih =>
    intro left
    by_cases hc : c ∈ left
    · simp only [remove_chars_go, if_pos hc, ih, List.toFinset_cons, Prod.mk.injEq]
      constructor
      · ext x
        simp only [Finset.mem_sdiff, Finset.mem_erase, Finset.mem_insert]
        tauto
      · ext x
        simp only [Finset.mem_insert, Finset.mem_inter, Finset.mem_erase]
        by_cases hx : x = c
        · subst hx; tauto
        · tauto
    · simp only [remove_chars_go, if_neg hc, ih, List.toFinset_cons, Prod.mk.injEq]
      constructor
      · ext x
        simp only [Finset.mem_sdiff, Finset.mem_insert]
        by_cases hx : x = c
        · subst hx; tauto
        · tauto
      · ext x
        simp only [Finset.mem_inter, Finset.mem_insert]
        by_cases hx : x = c
        · subst hx; tauto
        · tauto

theorem remove_chars_eq (left right : Finset Nat) :
    remove_chars left right = (left \ right, left ∩ right) := by
  rw [remove_chars, remove_chars_go_eq, sorted_chars_toFinset]

theorem add_chars_go_eq : ∀ (l : List Nat) (left : Finset Nat),
    add_chars_go left l = (left ∪ l.toFinset, l.toFinset \ left) := by
  intro l
  induction l with
  | nil => intro left; simp [add_chars_go]
  | cons c cs ih =>
    intro left
    by_cases hc : c ∈ left
    · simp only [add_chars_go, if_pos hc, ih, List.toFinset_cons, Prod.mk.injEq]
      constructor
      · ext x
        simp only [Finset.mem_union, Finset.mem_insert]
        by_cases hx : x = c
        · subst hx; tauto
        · tauto
      · ext x
        simp only [Finset.mem_sdiff, Finset.mem_insert]
        by_cases hx : x = c
        · subst hx; tauto
        · tauto
    · simp only [add_chars_go, if_neg hc, ih, List.toFinset_cons, Prod.mk.injEq]
      constructor
      · ext x
        simp only [Finset.mem_union, Finset.mem_insert]
        tauto
      · ext x
        simp only [Finset.mem_sdiff, Finset.mem_insert]
        by_cases hx : x = c
        · subst hx; tauto
        · tauto

theorem add_chars_eq (left right : Finset Nat) :
    add_chars left right = (left ∪ right, right \ left) := by
  rw [add_chars, add_chars_go_eq, sorted_chars_toFinset]

/-! Coverage of a list of ranges, and the behaviour of consolidate_ranges. -/

theorem mem_range_points {x : Nat} : ∀ {rs : List CharacterRange},
    x ∈ range_points rs ↔ ∃ r ∈ rs, r.min ≤ x ∧ x ≤ r.max := by
  intro rs
  induction rs with
  | nil => simp [range_points]
  | cons r rest ih =>
    simp [range_points, Finset.mem_union, Finset.mem_Icc, ih]

theorem range_points_reverse (rs : List CharacterRange) :
    range_points rs.reverse = range_points rs := by
  ext x
  simp [mem_range_points]

theorem consolidate_step_spec (acc : List CharacterRange) (c : Nat)
    (hord : acc.Chain' (fun a b => b.max < a.min))
    (hval : ∀ r ∈ acc, r.min ≤ r.max)
    (hlt : ∀ r ∈ acc, r.max < c) :
    (consolidate_step acc c).Chain' (fun a b => b.max < a.min) ∧
      (∀ r ∈ consolidate_step acc c, r.min ≤ r.max) ∧
      (∀ r ∈ consolidate_step acc c, r.max ≤ c) ∧
      range_points (consolidate_step acc c) = insert c (range_points acc) := by
  match acc with
  | [] =>
    refine ⟨List.chain'_singleton _, by simp [consolidate_step], by simp [consolidate_step], ?_⟩
    ext x
    simp [consolidate_step, range_points]
  | [last] =>
    have hv : last.min ≤ last.max := hval last (by simp)
    have hl : last.max < c := hlt last (by simp)
    by_cases hcond : last.min < last.max ∧ last.max + 1 = c
    · refine ⟨by simp [consolidate_step, hcond, List.chain'_singleton],
        by simp [consolidate_step, hcond]; omega,
        by simp [consolidate_step, hcond], ?_⟩
      simp only [consolidate_step, if_pos hcond]
      ext x
      simp only [range_points, Finset.mem_union, Finset.mem_Icc, Finset.mem_insert,
        Finset.not_mem_empty, or_false]
      omega
    · refine ⟨?_, by simp [consolidate_step, hcond]; omega,
        by simp [consolidate_step, hcond]; omega, ?_⟩
      · simp only [consolidate_step, if_neg hcond]
        exact List.chain'_cons.2 ⟨hl, List.chain'_singleton _⟩
      · simp only [consolidate_step, if_neg hcond]
        ext x
        simp only [range_points, Finset.mem_union, Finset.mem_Icc, Finset.mem_insert,
          Finset.not_mem_empty, or_false]
        omega
  | last :: penult :: rest =>
    have hv : last.min ≤ last.max := hval last (by simp)
    have hl : last.max < c := hlt last (by simp)
    have hvp : penult.min ≤ penult.max := hval penult (by simp)
    have hlp : penult.max < c := hlt penult (by simp)
    obtain ⟨hpl, hord1⟩ := List.chain'_cons.1 hord
    by_cases hcond : penult.max + 2 = c
    · have hlast1 : last.min = penult.max + 1 := by omega
      have hlast2 : last.max = penult.max + 1 := by omega
      refine ⟨?_, ?_, ?_, ?_⟩
      · simp only [consolidate_step, if_pos hcond]
        rw [List.chain'_cons'] at hord1 ⊢
        exact ⟨hord1.1, hord1.2⟩
      · simp only [consolidate_step, if_pos hcond]
        intro r hr
        rcases List.mem_cons.1 hr with h | h
        · subst h; simp; omega
        · exact hval r (by simp [h])
      · simp only [consolidate_step, if_pos hcond]
        intro r hr
        rcases List.mem_cons.1 hr with h | h
        · subst h; simp
        · exact le_of_lt (hlt r (by simp [h]))
      · simp only [consolidate_step, if_pos hcond]
        ext x
        simp only [range_points, Finset.mem_union, Finset.mem_Icc, Finset.mem_insert]
        by_cases hx : x ∈ range_points rest <;> simp [hx] <;> omega
    · by_cases hcond2 : last.min < last.max ∧ last.max + 1 = c
      · refine ⟨?_, ?_, ?_, ?_⟩
        · simp only [consolidate_step, if_neg hcond, if_pos hcond2]
          exact List.chain'_cons.2 ⟨hpl, hord1⟩
        · simp only [consolidate_step, if_neg hcond, if_pos hcond2]
          intro r hr
          rcases List.mem_cons.1 hr with h | h
          · subst h; simp; omega
          · exact hval r (by simp [h])
        · simp only [consolidate_step, if_neg hcond, if_pos hcond2]
          intro r hr
          rcases List.mem_cons.1 hr with h | h
          · subst h; simp
          · exact le_of_lt (hlt r (by simp [h]))
        · simp only [consolidate_step, if_neg hcond, if_pos hcond2]
          ext x
          simp only [range_points, Finset.mem_union, Finset.mem_Icc, Finset.mem_insert]
          by_cases hx : x ∈ range_points rest <;> simp [hx] <;> omega
      · refine ⟨?_, ?_, ?_, ?_⟩
        · simp only [consolidate_step, if_neg hcond, if_neg hcond2]
          exact List.chain'_cons.2 ⟨hl, hord⟩
        · simp only [consolidate_step, if_neg hcond, if_neg hcond2]
          intro r hr
          rcases List.mem_cons.1 hr with h | h
          · subst h; simp
          · exact hval r h
        · simp only [consolidate_step, if_neg hcond, if_neg hcond2]
          intro r hr
          rcases List.mem_cons.1 hr with h | h
          · subst h; simp
          · exact le_of_lt (hlt r h)
        · simp only [consolidate_step, if_neg hcond, if_neg hcond2]
          ext x
          simp only [range_points, Finset.mem_union, Finset.mem_Icc, Finset.mem_insert]
          by_cases hx : x ∈ range_points rest <;> simp [hx] <;> omega

theorem consolidate_fold_spec : ∀ (l : List Nat) (acc : List CharacterRange),
    l.Pairwise (· < ·) →
    acc.Chain' (fun a b => b.max < a.min) →
    (∀ r ∈ acc, r.min ≤ r.max) →
    (∀ r ∈ acc, ∀ x ∈ l, r.max < x) →
    (l.foldl consolidate_step acc).Chain' (fun a b => b.max < a.min) ∧
      (∀ r ∈ l.foldl consolidate_step acc, r.min ≤ r.max) ∧
      range_points (l.foldl consolidate_step acc) = range_points acc ∪ l.toFinset := by
  intro l
  induction l with
  | nil =>
    intro acc _ hord hval _
    exact ⟨hord, hval, by simp⟩
  | cons c cs ih =>
    intro acc hsort hord hval hbelow
    have hlt : ∀ r ∈ acc, r.max < c := fun r hr => hbelow r hr c (by simp)
    obtain ⟨hord2, hval2, hbound2, hrp⟩ := consolidate_step_spec acc c hord hval hlt
    have hcl : ∀ x ∈ cs, c < x := (List.pairwise_cons.1 hsort).1
    have hbelow2 : ∀ r ∈ consolidate_step acc c, ∀ x ∈ cs, r.max < x :=
      fun r hr x hx => lt_of_le_of_lt (hbound2 r hr) (hcl x hx)
    obtain ⟨h1, h2, h3⟩ :=
      ih (consolidate_step acc c) (List.Pairwise.of_cons hsort) hord2 hval2 hbelow2
    rw [List.foldl_cons]
    refine ⟨h1, h2, ?_⟩
    rw [h3, hrp]
    ext x
    simp only [List.toFinset_cons, Finset.mem_insert, Finset.mem_union]
    tauto

theorem consolidate_ranges_coverage (s : Finset Nat) :
    range_points (consolidate_ranges s) = s := by
  have h := consolidate_fold_spec (sorted_chars s) [] (sorted_chars_pairwise s)
    List.chain'_nil (by simp) (by simp)
  rw [consolidate_ranges, range_points_reverse, h.2.2]
  simp [range_points, sorted_chars_toFinset]

/-! Properties of the lexicographic comparison used by operator<. -/

theorem lexLt_irrefl : ∀ l : List Nat, lexLt l l = false := by
  intro l
  induction l with
  | nil => rfl
  | cons a as ih => simp [lexLt, ih]

theorem lexLt_cons_iff (x y : Nat) (xs ys : List Nat) :
    lexLt (x :: xs) (y :: ys) = true ↔ x < y ∨ (x = y ∧ lexLt xs ys = true) := by
  simp only [lexLt]
  split_ifs with h1 h2
  · simp [h1]
  · simp only [Bool.false_eq_true, false_iff]
    rintro (h | ⟨rfl, -⟩) <;> omega
  · have hxy : x = y := by omega
    simp [hxy]

theorem lexLt_trans : ∀ (a b c : List Nat),
    lexLt a b = true → lexLt b c = true → lexLt a c = true := by
  intro a
  induction a with
  | nil =>
    intro b c _ hbc
    cases c with
    | nil =>
      cases b with
      | nil => exact hbc
      | cons y ys => simp [lexLt] at hbc
    | cons z zs => rfl
  | cons x xs ih =>
    intro b c hab hbc
    cases b with
    | nil => simp [lexLt] at hab
    | cons y ys =>
      cases c with
      | nil => simp [lexLt] at hbc
      | cons z zs =>
        rw [lexLt_cons_iff] at hab hbc ⊢
        rcases hab with h | ⟨hxy, h⟩
        · rcases hbc with h2 | ⟨hyz, h2⟩
          · exact Or.inl (lt_trans h h2)
          · subst hyz; exact Or.inl h
        · subst hxy
          rcases hbc with h2 | ⟨hyz, h2⟩
          · exact Or.inl h2
          · subst hyz; exact Or.inr ⟨rfl, ih ys zs h h2⟩

theorem lexLt_eq_of_not : ∀ (a b : List Nat),
    lexLt a b = false → lexLt b a = false → a = b := by
  intro a
  induction a with
  | nil =>
    intro b hab _
    cases b with
    | nil => rfl
    | cons y ys => simp [lexLt] at hab
  | cons x xs ih =>
    intro b hab hba
    cases b with
    | nil => simp [lexLt] at hba
    | cons y ys =>
      rw [Bool.eq_false_iff] at hab hba
      have hxy : x = y := by
        by_cases h1 : x < y
        · exact absurd ((lexLt_cons_iff x y xs ys).2 (Or.inl h1)) hab
        by_cases h2 : y < x
        · exact absurd ((lexLt_cons_iff y x ys xs).2 (Or.inl h2)) hba
        omega
      subst hxy
      have hxs : lexLt xs ys = false := by
        cases hx : lexLt xs ys
        · rfl
        · exact absurd ((lexLt_cons_iff x x xs ys).2 (Or.inr ⟨rfl, hx⟩)) hab
      have hys : lexLt ys xs = false := by
        cases hy : lexLt ys xs
        · rfl
        · exact absurd ((lexLt_cons_iff x x ys xs).2 (Or.inr ⟨rfl, hy⟩)) hba
      rw [ih ys hxs hys]

theorem lexLt_asymm (a b : List Nat) (h : lexLt a b = true) : lexLt b a = false := by
  cases hba : lexLt b a
  · rfl
  · have habs := lexLt_trans a b a h hba
    rw [lexLt_irrefl] at habs
    exact absurd habs (by simp)

theorem cs_lt_unfold (s o : CharacterSet) :
    CharacterSet.lt s o =
      if !s.includes_all && o.includes_all then true
      else if s.includes_all && !o.includes_all then false
      else pairLexLt (sorted_chars s.included_chars) (sorted_chars s.excluded_chars)
        (sorted_chars o.included_chars) (sorted_chars o.excluded_chars) := rfl

theorem pairLexLt_irrefl (i e : List Nat) : pairLexLt i e i e = false := by
  simp [pairLexLt, lexLt_irrefl]

theorem pairLexLt_trans (i1 e1 i2 e2 i3 e3 : List Nat)
    (h12 : pairLexLt i1 e1 i2 e2 = true) (h23 : pairLexLt i2 e2 i3 e3 = true) :
    pairLexLt i1 e1 i3 e3 = true := by
  unfold pairLexLt at h12 h23 ⊢
  by_cases a12 : lexLt i1 i2 = true
  · by_cases a23 : lexLt i2 i3 = true
    · rw [if_pos (lexLt_trans i1 i2 i3 a12 a23)]
    · by_cases a32 : lexLt i3 i2 = true
      · rw [if_neg a23, if_pos a32] at h23
        exact absurd h23 (by simp)
      · have hi : i2 = i3 := lexLt_eq_of_not i2 i3 (by simpa using a23) (by simpa using a32)
        subst hi
        rw [if_pos a12]
  · by_cases a21 : lexLt i2 i1 = true
    · rw [if_neg a12, if_pos a21] at h12
      exact absurd h12 (by simp)
    · have hi : i1 = i2 := lexLt_eq_of_not i1 i2 (by simpa using a12) (by simpa using a21)
      subst hi
      rw [if_neg a12, if_neg a21] at h12
      by_cases a23 : lexLt i1 i3 = true
      · rw [if_pos a23]
      · by_cases a32 : lexLt i3 i1 = true
        · rw [if_neg a23, if_pos a32] at h23
          exact absurd h23 (by simp)
        · rw [if_neg a23, if_neg a32] at h23 ⊢
          exact lexLt_trans e1 e2 e3 h12 h23

theorem pairLexLt_eq_of_not (i1 e1 i2 e2 : List Nat)
    (h12 : pairLexLt i1 e1 i2 e2 = false) (h21 : pairLexLt i2 e2 i1 e1 = false) :
    i1 = i2 ∧ e1 = e2 := by
  unfold pairLexLt at h12 h21
  by_cases a12 : lexLt i1 i2 = true
  · rw [if_pos a12] at h12
    exact absurd h12 (by simp)
  · by_cases a21 : lexLt i2 i1 = true
    · rw [if_pos a21] at h21
      exact absurd h21 (by simp)
    · have hi : i1 = i2 := lexLt_eq_of_not i1 i2 (by simpa using a12) (by simpa using a21)
      subst hi
      rw [if_neg a12, if_neg a21] at h12 h21
      exact ⟨rfl, lexLt_eq_of_not e1 e2 h12 h21⟩

/-! Order properties of operator<. -/

theorem cs_lt_irrefl (a : CharacterSet) : CharacterSet.lt a a = false := by
  rw [cs_lt_unfold]
  cases ha : a.includes_all <;> simp [ha, pairLexLt_irrefl]

theorem cs_lt_trans (a b c : CharacterSet) (hab : CharacterSet.lt a b = true)
    (hbc : CharacterSet.lt b c = true) : CharacterSet.lt a c = true := by
  rw [cs_lt_unfold] at hab hbc ⊢
  cases ha : a.includes_all <;> cases hb : b.includes_all <;> cases hc : c.includes_all <;>
    simp [ha, hb, hc] at hab hbc ⊢ <;>
    exact pairLexLt_trans _ _ _ _ _ _ hab hbc

theorem cs_lt_asymm (a b : CharacterSet) (h : CharacterSet.lt a b = true) :
    CharacterSet.lt b a = false := by
  cases hba : CharacterSet.lt b a
  · rfl
  · have habs := cs_lt_trans a b a h hba
    rw [cs_lt_irrefl] at habs
    exact absurd habs (by simp)

theorem cs_lt_eq_of_not (a b : CharacterSet) (hab : CharacterSet.lt a b = false)
    (hba : CharacterSet.lt b a = false) : a = b := by
  rw [cs_lt_unfold] at hab hba
  obtain ⟨ia, iA, eA⟩ := a
  obtain ⟨ib, iB, eB⟩ := b
  cases ia <;> cases ib <;> simp at hab hba ⊢ <;>
    [skip; skip] <;>
    · obtain ⟨hi, he⟩ := pairLexLt_eq_of_not _ _ _ _ hab hba
      exact ⟨sorted_chars_inj hi, sorted_chars_inj he⟩

/-! The tidy-representation invariant is preserved by every public
operation. -/

theorem tidy_default : TidyRep CharacterSet.default :=
  ⟨fun _ => rfl, by simp [CharacterSet.default]⟩

theorem tidy_apply (s : CharacterSet) (op : CsOp) (h : TidyRep s) :
    TidyRep (CsOp.apply s op) := by
  obtain ⟨ia, iS, eS⟩ := s
  obtain ⟨h1, h2⟩ := h
  cases op with
  | opIncludeAll =>
    exact ⟨by simp [CsOp.apply, CharacterSet.include_all], fun _ => rfl⟩
  | opInclude a b =>
    cases ia
    · have he : eS = ∅ := h1 rfl
      subst he
      exact ⟨fun _ => rfl, by simp [CsOp.apply, CharacterSet.include_range]⟩
    · have hi : iS = ∅ := h2 rfl
      subst hi
      exact ⟨by simp [CsOp.apply, CharacterSet.include_range], fun _ => rfl⟩
  | opExclude a b =>
    cases ia
    · have he : eS = ∅ := h1 rfl
      subst he
      exact ⟨fun _ => rfl, by simp [CsOp.apply, CharacterSet.exclude_range]⟩
    · have hi : iS = ∅ := h2 rfl
      subst hi
      exact ⟨by simp [CsOp.apply, CharacterSet.exclude_range], fun _ => rfl⟩
  | opAddSet o =>
    cases ia <;> cases ho : o.includes_all
    · have he : eS = ∅ := h1 rfl
      subst he
      refine ⟨?_, ?_⟩ <;> simp [CsOp.apply, CharacterSet.add_set, ho]
    · refine ⟨?_, ?_⟩ <;> simp [CsOp.apply, CharacterSet.add_set, ho]
    · have hi : iS = ∅ := h2 rfl
      subst hi
      refine ⟨?_, ?_⟩ <;> simp [CsOp.apply, CharacterSet.add_set, ho]
    · have hi : iS = ∅ := h2 rfl
      subst hi
      refine ⟨?_, ?_⟩ <;> simp [CsOp.apply, CharacterSet.add_set, ho]
  | opRemoveSet o =>
    cases ia <;> cases ho : o.includes_all
    · have he : eS = ∅ := h1 rfl
      subst he
      refine ⟨?_, ?_⟩ <;> simp [CsOp.apply, CharacterSet.remove_set, ho]
    · have he : eS = ∅ := h1 rfl
      subst he
      refine ⟨?_, ?_⟩ <;> simp [CsOp.apply, CharacterSet.remove_set, ho]
    · have hi : iS = ∅ := h2 rfl
      subst hi
      refine ⟨?_, ?_⟩ <;> simp [CsOp.apply, CharacterSet.remove_set, ho]
    · have hi : iS = ∅ := h2 rfl
      subst hi
      refine ⟨?_, ?_⟩ <;> simp [CsOp.apply, CharacterSet.remove_set, ho]

/-! Theorems for the claims. -/

/-- C8: after include_all() the set is in complement form with
included_chars empty and excluded_chars exactly the singleton of 0, so
it contains every code point except code point 0. -/
theorem include_all_spec (s : CharacterSet) :
    (s.include_all).includes_all = true ∧
      (s.include_all).included_chars = ∅ ∧
      (s.include_all).excluded_chars = {0} ∧
      ∀ p : Nat, (s.include_all).mem p = decide (p ≠ 0) := by
  refine ⟨rfl, rfl, rfl, fun p => ?_⟩
  show decide (p ∉ ({0} : Finset Nat)) = decide (p ≠ 0)
  exact decide_eq_decide.2 (by simp)

/-- C5: for every character set A, in direct or complement form and with
any field contents, A.remove_set(A) leaves A empty (is_empty() holds)
and returns a set whose members are exactly the members of the original
A. -/
theorem remove_set_self_spec (A : CharacterSet) :
    (A.remove_set A).1.is_empty = true ∧
      ∀ p : Nat, (A.remove_set A).2.mem p = A.mem p := by
  obtain ⟨ia, iA, eA⟩ := A
  cases ia
  · simp [CharacterSet.remove_set, CharacterSet.is_empty, CharacterSet.mem,
      remove_chars_eq, Finset.sdiff_self, Finset.inter_self]
  · simp [CharacterSet.remove_set, CharacterSet.is_empty, CharacterSet.mem,
      add_chars_eq, Finset.sdiff_self, Finset.union_self]

/-- C1 counterexample: the claim quantifies over all character sets; for
the direct-form set A with stale excluded_chars = {5} (representing the
empty set) and the complement-form B excluding only 0, the point 5 is a
member of B, yet after A.add_set(B) it is not a member of A. -/
theorem add_set_union_counterexample :
    ((⟨false, ∅, {5}⟩ : CharacterSet).add_set ⟨true, ∅, {0}⟩).mem 5 = false ∧
      (⟨false, ∅, {5}⟩ : CharacterSet).mem 5 = false ∧
      (⟨true, ∅, {0}⟩ : CharacterSet).mem 5 = true := by
  decide

/-- C1 (amended): for all B and all A whose stale complement field is
empty (in particular every set reachable by the public operations),
after A.add_set(B) a point p is a member of A exactly when it was a
member of the original A or is a member of B, in all four cases of
(A.includes_all, B.includes_all). -/
theorem add_set_mem_union (A B : CharacterSet)
    (hA : A.includes_all = false → A.excluded_chars = ∅) (p : Nat) :
    (A.add_set B).mem p = (A.mem p || B.mem p) := by
  obtain ⟨ia, iA, eA⟩ := A
  obtain ⟨ib, iB, eB⟩ := B
  cases ia <;> cases ib
  · by_cases h1 : p ∈ iA <;> by_cases h2 : p ∈ iB <;>
      simp [CharacterSet.add_set, CharacterSet.mem, h1, h2]
  · have he : eA = ∅ := hA rfl
    subst he
    by_cases h1 : p ∈ iA <;> by_cases h2 : p ∈ eB <;>
      simp [CharacterSet.add_set, CharacterSet.mem, Finset.mem_filter, h1, h2]
  · by_cases h1 : p ∈ eA <;> by_cases h2 : p ∈ iB <;>
      simp [CharacterSet.add_set, CharacterSet.mem, remove_chars_eq, h1, h2]
  · by_cases h1 : p ∈ eA <;> by_cases h2 : p ∈ eB <;>
      simp [CharacterSet.add_set, CharacterSet.mem, remove_chars_eq, h1, h2]

/-- C1 witness: the amended theorem applied at a concrete tidy A,
complement-form B and point 1. -/
theorem add_set_mem_union_witness :
    ((⟨false, {1}, ∅⟩ : CharacterSet).includes_all = false →
        (⟨false, {1}, ∅⟩ : CharacterSet).excluded_chars = ∅) ∧
      ((⟨false, {1}, ∅⟩ : CharacterSet).add_set ⟨true, ∅, {0}⟩).mem 1 =
        ((⟨false, {1}, ∅⟩ : CharacterSet).mem 1 || (⟨true, ∅, {0}⟩ : CharacterSet).mem 1) :=
  ⟨fun _ => rfl, add_set_mem_union ⟨false, {1}, ∅⟩ ⟨true, ∅, {0}⟩ (fun _ => rfl) 1⟩

/-- C2 counterexample: for self = complement-of-{1} and other =
complement-of-{2}, the set returned by remove_set has an empty inclusion
set, not the union {1, 2} of the exclusion sets, and it contains the
point 3 which is not in that union. -/
theorem remove_set_complement_counterexample :
    ((⟨true, ∅, {1}⟩ : CharacterSet).remove_set ⟨true, ∅, {2}⟩).2.included_chars = ∅ ∧
      (∅ : Finset Nat) ≠ {1, 2} ∧
      ((⟨true, ∅, {1}⟩ : CharacterSet).remove_set ⟨true, ∅, {2}⟩).2.mem 3 = true ∧
      3 ∉ ({1, 2} : Finset Nat) := by
  decide

/-- C2 (amended): when self and other are both in complement form,
remove_set(other) returns a set in complement form whose exclusion set
is the union of the two exclusion sets, so its members are exactly the
points excluded by neither operand (the removed points, self inter
other); self converts to direct form holding what remains of self minus
other, namely the points other excludes and self does not. -/
theorem remove_set_complement_spec (s o : CharacterSet)
    (hs : s.includes_all = true) (ho : o.includes_all = true) :
    (s.remove_set o).2 = ⟨true, ∅, s.excluded_chars ∪ o.excluded_chars⟩ ∧
      (∀ p : Nat, (s.remove_set o).2.mem p = (s.mem p && o.mem p)) ∧
      (s.remove_set o).1 = ⟨false, o.excluded_chars \ s.excluded_chars, ∅⟩ ∧
      (∀ p : Nat, (s.remove_set o).1.mem p = (s.mem p && !o.mem p)) := by
  obtain ⟨ia, iS, eS⟩ := s
  obtain ⟨ib, iO, eO⟩ := o
  simp only [CharacterSet.includes_all] at hs ho
  subst hs
  subst ho
  refine ⟨?_, ?_, ?_, ?_⟩
  · simp [CharacterSet.remove_set, add_chars_eq]
  · intro p
    by_cases h1 : p ∈ eS <;> by_cases h2 : p ∈ eO <;>
      simp [CharacterSet.remove_set, CharacterSet.mem, add_chars_eq, h1, h2]
  · simp [CharacterSet.remove_set, add_chars_eq]
  · intro p
    by_cases h1 : p ∈ eS <;> by_cases h2 : p ∈ eO <;>
      simp [CharacterSet.remove_set, CharacterSet.mem, add_chars_eq, h1, h2]

/-- C2 witness: the amended theorem applied at self = complement-of-{1},
other = complement-of-{2}, with the membership clauses instantiated at
the point 3. -/
theorem remove_set_complement_spec_witness :
    ((⟨true, ∅, {1}⟩ : CharacterSet).includes_all = true ∧
        (⟨true, ∅, {2}⟩ : CharacterSet).includes_all = true) ∧
      ((⟨true, ∅, {1}⟩ : CharacterSet).remove_set ⟨true, ∅, {2}⟩).2 =
        ⟨true, ∅, ({1} : Finset Nat) ∪ {2}⟩ ∧
      ((⟨true, ∅, {1}⟩ : CharacterSet).remove_set ⟨true, ∅, {2}⟩).1 =
        ⟨false, ({2} : Finset Nat) \ {1}, ∅⟩ :=
  ⟨⟨rfl, rfl⟩,
    (remove_set_complement_spec ⟨true, ∅, {1}⟩ ⟨true, ∅, {2}⟩ rfl rfl).1,
    (remove_set_complement_spec ⟨true, ∅, {1}⟩ ⟨true, ∅, {2}⟩ rfl rfl).2.2.1⟩

/-- C3 (code bug): on the direct-form point set {1,2,3,7,8,10},
included_ranges() returns [[1,3],[7,7],[8,8],[10,10]] — the run {7,8} of
length two is left as two adjacent singleton ranges — and not the
sequence [[1,3],[7,8],[10,10]] stated by the claim. -/
theorem included_ranges_eval_on_spec_example :
    (CharacterSet.mk false {1, 2, 3, 7, 8, 10} ∅).included_ranges =
      [⟨1, 3⟩, ⟨7, 7⟩, ⟨8, 8⟩, ⟨10, 10⟩] ∧
      (CharacterSet.mk false {1, 2, 3, 7, 8, 10} ∅).included_ranges ≠
        [⟨1, 3⟩, ⟨7, 8⟩, ⟨10, 10⟩] := by
  decide

/-- C4 (code bug): on the point set {7, 8} consolidate_ranges returns
the two adjacent ranges [7,7],[8,8] rather than the single range [7,8],
so the produced sequence is not minimal and its consecutive ranges can
be adjacent. -/
theorem consolidate_ranges_pair_not_minimal :
    consolidate_ranges {7, 8} = [⟨7, 7⟩, ⟨8, 8⟩] ∧
      consolidate_ranges {7, 8} ≠ [⟨7, 8⟩] := by
  decide

theorem range_loop_counter_lt (min : Nat) : ∀ n, range_loop_counter min n < u32 := by
  intro n
  have hpos : 0 < u32 := by decide
  induction n with
  | zero => exact Nat.mod_lt _ hpos
  | succ k ih => exact Nat.mod_lt _ hpos

/-- C6 counterexample: at min = 0, max = 2^32 - 1 — a legal ordered pair
of unsigned 32-bit bounds — the loop variable of add_range / remove_range
always stays below 2^32 after the uint32 increment, so the loop condition
c <= max never fails and include(0, 2^32 - 1) does not terminate. -/
theorem range_loop_diverges_at_uint32_max : ¬ range_loop_terminates 0 (u32 - 1) := by
  rintro ⟨n, hn⟩
  have h := range_loop_counter_lt 0 n
  unfold u32 at h hn
  omega

/-- C6 (amended): include(min, max) and exclude(min, max) are total for
every pair of unsigned 32-bit bounds with max < 2^32 - 1: the range loop
exits after max - min + 1 iterations (immediately when min > max) and
its effect on the stored set is exactly the points of [min, max]. -/
theorem range_loop_terminates_below_uint32_max (min max : Nat)
    (hmin : min < u32) (hmax : max < u32 - 1) :
    range_loop_terminates min max ∧
      ∀ chars : Finset Nat, add_range chars min max = chars ∪ Finset.Icc min max := by
  constructor
  · by_cases h : min ≤ max
    · have hcount : ∀ k, min + k < u32 → range_loop_counter min k = min + k := by
        intro k
        induction k with
        | zero =>
          intro _
          show min % u32 = min + 0
          rw [Nat.mod_eq_of_lt hmin, Nat.add_zero]
        | succ j ih =>
          intro hk
          have hj : min + j < u32 := by omega
          show (range_loop_counter min j + 1) % u32 = min + (j + 1)
          rw [ih hj, Nat.mod_eq_of_lt (by omega)]
          omega
      refine ⟨max + 1 - min, ?_⟩
      rw [hcount (max + 1 - min) (by omega)]
      omega
    · refine ⟨0, ?_⟩
      show max < min % u32
      rw [Nat.mod_eq_of_lt hmin]
      omega
  · intro chars
    exact add_range_eq chars min max

/-- C6 witness: the amended theorem applied at the bounds 3 and 10,
with the set-effect clause instantiated at the stored set {1}. -/
theorem range_loop_terminates_witness :
    (3 < u32 ∧ 10 < u32 - 1) ∧ range_loop_terminates 3 10 ∧
      add_range {1} 3 10 = {1} ∪ Finset.Icc 3 10 :=
  ⟨⟨by decide, by decide⟩,
    (range_loop_terminates_below_uint32_max 3 10 (by decide) (by decide)).1,
    (range_loop_terminates_below_uint32_max 3 10 (by decide) (by decide)).2 {1}⟩

/-- C7: every set reachable from the default constructor through any
sequence of the public operations include_all, include, exclude,
add_set, remove_set keeps its non-authoritative field empty, and so does
every set returned by remove_set (for arbitrary operands). -/
theorem reachable_tidy_rep :
    (∀ ops : List CsOp, TidyRep (runOps ops)) ∧
      (∀ s other : CharacterSet, TidyRep (s.remove_set other).2) := by
  constructor
  · intro ops
    rw [runOps]
    have hfold : ∀ (l : List CsOp) (s : CharacterSet), TidyRep s →
        TidyRep (l.foldl CsOp.apply s) := by
      intro l
      induction l with
      | nil => intro s hs; exact hs
      | cons op rest ih => intro s hs; exact ih (CsOp.apply s op) (tidy_apply s op hs)
    exact hfold ops CharacterSet.default tidy_default
  · intro s o
    obtain ⟨ia, iS, eS⟩ := s
    cases ia <;> cases ho : o.includes_all <;>
      refine ⟨?_, ?_⟩ <;> simp [CharacterSet.remove_set, ho]

theorem ie_apply_direct (s : CharacterSet) (op : IEOp) (h : s.includes_all = false) :
    (IEOp.apply s op).includes_all = false := by
  cases op <;>
    simp [IEOp.apply, CharacterSet.include_range, CharacterSet.exclude_range, h]

theorem buildIE_direct (ops : List IEOp) : (buildIE ops).includes_all = false := by
  rw [buildIE]
  have hfold : ∀ (l : List IEOp) (s : CharacterSet), s.includes_all = false →
      (l.foldl IEOp.apply s).includes_all = false := by
    intro l
    induction l with
    | nil => intro s hs; exact hs
    | cons op rest ih => intro s hs; exact ih (IEOp.apply s op) (ie_apply_direct s op hs)
  exact hfold ops CharacterSet.default rfl

theorem rebuild_eq (rs : List CharacterRange) :
    rebuild rs = ⟨false, range_points rs, ∅⟩ := by
  rw [rebuild]
  have hfold : ∀ (l : List CharacterRange) (t : Finset Nat),
      l.foldl (fun (s : CharacterSet) (r : CharacterRange) => s.include_range r.min r.max)
          (⟨false, t, ∅⟩ : CharacterSet) =
        (⟨false, t ∪ range_points l, ∅⟩ : CharacterSet) := by
    intro l
    induction l with
    | nil => intro t; simp [range_points]
    | cons r rest ih =>
      intro t
      rw [List.foldl_cons]
      have hstep : CharacterSet.include_range ⟨false, t, ∅⟩ r.min r.max =
          ⟨false, t ∪ Finset.Icc r.min r.max, ∅⟩ := by
        simp [CharacterSet.include_range, add_range_eq]
      rw [hstep, ih]
      simp [range_points, Finset.union_assoc]
  have h := hfold rs ∅
  rw [show CharacterSet.default = (⟨false, ∅, ∅⟩ : CharacterSet) from rfl, h]
  simp

/-- C9: for every set A built from a fresh CharacterSet by include and
exclude calls only (never include_all), re-including every range of
included_ranges() into a fresh set produces a set with exactly the same
members as A. -/
theorem included_ranges_roundtrip (ops : List IEOp) (p : Nat) :
    (rebuild ((buildIE ops).included_ranges)).mem p = (buildIE ops).mem p := by
  have hdir := buildIE_direct ops
  rw [rebuild_eq]
  simp [CharacterSet.mem, CharacterSet.included_ranges, consolidate_ranges_coverage, hdir]

/-- C10: operator< is a strict total order over all field states:
irreflexive, transitive, and for distinct values exactly one of
a < b, b < a holds. -/
theorem lt_strict_total_order :
    (∀ a : CharacterSet, CharacterSet.lt a a = false) ∧
      (∀ a b c : CharacterSet, CharacterSet.lt a b = true → CharacterSet.lt b c = true →
        CharacterSet.lt a c = true) ∧
      (∀ a b : CharacterSet, a ≠ b →
        (CharacterSet.lt a b = true ∧ CharacterSet.lt b a = false) ∨
          (CharacterSet.lt b a = true ∧ CharacterSet.lt a b = false)) := by
  refine ⟨cs_lt_irrefl, cs_lt_trans, ?_⟩
  intro a b hne
  by_cases hab : CharacterSet.lt a b = true
  · exact Or.inl ⟨hab, cs_lt_asymm a b hab⟩
  · by_cases hba : CharacterSet.lt b a = true
    · exact Or.inr ⟨hba, by simpa using hab⟩
    · exact absurd (cs_lt_eq_of_not a b (by simpa using hab) (by simpa using hba)) hne

/-- C10 witness: the transitivity clause applied at three concrete sets
and the trichotomy clause at two concrete distinct sets. -/
theorem lt_strict_total_order_witness :
    CharacterSet.lt ⟨false, ∅, ∅⟩ ⟨true, ∅, ∅⟩ = true ∧
      ((CharacterSet.lt ⟨false, ∅, ∅⟩ ⟨false, {1}, ∅⟩ = true ∧
          CharacterSet.lt ⟨false, {1}, ∅⟩ ⟨false, ∅, ∅⟩ = false) ∨
        (CharacterSet.lt ⟨false, {1}, ∅⟩ ⟨false, ∅, ∅⟩ = true ∧
          CharacterSet.lt ⟨false, ∅, ∅⟩ ⟨false, {1}, ∅⟩ = false)) :=
  ⟨lt_strict_total_order.2.1 ⟨false, ∅, ∅⟩ ⟨false, {1}, ∅⟩ ⟨true, ∅, ∅⟩
      (by decide) (by decide),
    lt_strict_total_order.2.2 ⟨false, ∅, ∅⟩ ⟨false, {1}, ∅⟩ (by decide)⟩
